import Mathlib

/-! Verification development for the prior-transform engine of the `bsr`
repository (`bsr/priors.py`).

Modelling conventions:
* A numpy 1d float array is a `List F` with `F := Option ℝ`; the value
  `none` models the IEEE NaN sentinel, `some x` models an ordinary float.
  Elementwise arithmetic propagates `none` exactly as NaN propagates.
  (Infinities and rounding of binary floating point are not modelled; all
  claims are about exact real arithmetic on the hypercube.)
* A python call that raises (IndexError from indexing an empty array,
  ValueError from `int(np.round(nan))` when it escapes the handler) is
  modelled by an `Option` result, `none` meaning "the call raised".
* Numpy basic slices are views: slice assignment writes through to the
  array owned by the caller.  A prior call therefore returns a pair
  `(theta, cube)` where the second component is the possibly mutated
  input array.
* `scipy.special.erfinv` is modelled as the inverse of the Gauss error
  function, itself defined by its integral formula; no claim depends on
  its values.
* `np.round` rounds half to even (numpy documented behaviour).
-/

namespace BSR

open Real

/-- The Gauss error function, model of `scipy.special.erf`. -/
noncomputable def erf (x : ℝ) : ℝ :=
  (2 / Real.sqrt Real.pi) * ∫ t in (0:ℝ)..x, Real.exp (-(t ^ 2))

/-- Model of `scipy.special.erfinv`, the inverse of `erf`. -/
noncomputable def erfinv (y : ℝ) : ℝ :=
  Function.invFun erf y

/-- Model of `np.round` followed by `int(...)`: round half to even. -/
noncomputable def roundHalfEven (x : ℝ) : ℤ :=
  if x - ⌊x⌋ < 1 / 2 then ⌊x⌋
  else if 1 / 2 < x - ⌊x⌋ then ⌊x⌋ + 1
  else if Even ⌊x⌋ then ⌊x⌋ else ⌊x⌋ + 1

/-- Model of the numpy slice assignment `l[i : i + len v] = v` (with the
numpy clipping behaviour for slices reaching past the end); always
returns a list of the same length as `l`. -/
def writeSlice {α : Type} (l : List α) (i : ℕ) (v : List α) : List α :=
  l.take i ++ v.take (l.length - i) ++ l.drop (i + v.length)

/-- Recursion realising the loop of `forced_identifiability` over real
entries: argument `n` is the absolute index of the current head in the
original array.  The last entry of a length `K` array sits at index
`K - 1` and receives exponent `1 / K = 1 / (n + 1)`; every earlier entry
at index `n` receives exponent `1 / (n + 1)` and is multiplied by its
right neighbour in the output. -/
noncomputable def forcedIdentAux : ℕ → List ℝ → List ℝ
  | n, [x] => [x ^ ((1 : ℝ) / ((n : ℝ) + 1))]
  | n, x :: y :: r =>
      (x ^ ((1 : ℝ) / ((n : ℝ) + 1)) * (forcedIdentAux (n + 1) (y :: r)).headD 0)
        :: forcedIdentAux (n + 1) (y :: r)
  | _, [] => []

/-- Model of `forced_identifiability` (priors.py lines 354-371) on an
array of ordinary (non-NaN) floats. -/
noncomputable def forced_identifiability (cube : List ℝ) : List ℝ :=
  forcedIdentAux 0 cube

/-- A numpy float: `none` is the NaN sentinel. -/
abbrev F : Type := Option ℝ

/-- NaN-propagating product of two floats. -/
noncomputable def fmul : F → F → F
  | some a, some b => some (a * b)
  | _, _ => none

/-- NaN-propagating real power `a ** e` (the source only raises bases in
`[0, 1]` to positive fractional powers, so the numpy NaN results for
negative bases never arise and are not modelled). -/
noncomputable def fpow (a : F) (e : ℝ) : F :=
  a.map (· ^ e)

/-- Lifting of `forcedIdentAux` to NaN-carrying floats. -/
noncomputable def fiAuxF : ℕ → List F → List F
  | n, [x] => [fpow x ((1 : ℝ) / ((n : ℝ) + 1))]
  | n, x :: y :: r =>
      fmul (fpow x ((1 : ℝ) / ((n : ℝ) + 1))) ((fiAuxF (n + 1) (y :: r)).headD none)
        :: fiAuxF (n + 1) (y :: r)
  | _, [] => []

/-- Lifting of `forced_identifiability` to NaN-carrying floats. -/
noncomputable def fiF (cube : List F) : List F :=
  fiAuxF 0 cube

/-- Model of `Uniform.cube_to_physical` (priors.py line 240), elementwise. -/
noncomputable def uniformCtp (minimum maximum : ℝ) (cube : List F) : List F :=
  cube.map (Option.map (fun u => minimum + (maximum - minimum) * u))

/-- Model of `Gaussian.cube_to_physical` (priors.py lines 198-203), elementwise. -/
noncomputable def gaussianCtp (sigma : ℝ) (positive : Bool) (cube : List F) : List F :=
  cube.map (Option.map (fun u =>
    (if positive then erfinv u else erfinv (2 * u - 1)) * (sigma * Real.sqrt 2)))

/-- Model of `Exponential.cube_to_physical` (priors.py line 272), elementwise.
(Mathlib `Real.log 0 = 0` stands in for the numpy `-inf` at `u = 1`;
no claim evaluates there.) -/
noncomputable def exponentialCtp (lambd : ℝ) (cube : List F) : List F :=
  cube.map (Option.map (fun u => -Real.log (1 - u) / lambd))

/-- Model of `adaptive_transform` (priors.py lines 374-396).  The result
is `none` when the python call raises: IndexError on an empty cube, and
ValueError from `int(np.round(nan))` when the leading coordinate is the
NaN sentinel. -/
noncomputable def adaptive_transform (cube : List F) (nfunc_min : ℤ) : Option (ℤ × List F) :=
  match cube with
  | [] => none
  | u0 :: rest =>
    let nfunc_max : ℤ := ((rest.length : ℤ) + 1) - 1
    match u0 with
    | none => none
    | some u =>
      let theta0 : ℝ :=
        ((nfunc_min : ℝ) - 0.5) + (1 + (nfunc_max : ℝ) - (nfunc_min : ℝ)) * u
      some (roundHalfEven theta0, some theta0 :: List.replicate rest.length (some 0))

/-- Model of `BasePrior.__call__` (priors.py lines 127-158), parametrised
by the `cube_to_physical` map of the concrete subclass.  Returns
`(theta, cube)` where `cube` is the possibly mutated input array (the
adaptive sorted branch assigns into `cube[1 : 1 + nfunc]` in place);
`none` models an uncaught exception (in particular the IndexError that
`forced_identifiability` raises on an empty slice). -/
noncomputable def basePriorCall (ctp : List F → List F) (adaptive sort : Bool)
    (nfunc_min : ℤ) (cube : List F) : Option (List F × List F) :=
  if adaptive then
    match adaptive_transform cube nfunc_min with
    | none =>
      match cube.head? with
      | some none => some (List.replicate cube.length none, cube)
      | _ => none
    | some (nfunc, theta) =>
      if sort then
        let slice := (cube.drop 1).take nfunc.toNat
        if slice.isEmpty then none
        else
          let cube2 := writeSlice cube 1 (fiF slice)
          some (theta.headD none :: ctp (cube2.drop 1), cube2)
      else
        some (theta.headD none :: ctp (cube.drop 1), cube)
  else
    if sort then
      if cube.isEmpty then none
      else some (ctp (fiF cube), cube)
    else some (ctp cube, cube)

/-- The closed type of prior transforms built in `priors.py`:
the three primitive `BasePrior` subclasses with their `adaptive`,
`sort` and `nfunc_min` configuration, `BlockPrior`, and `AdFamPrior`. -/
inductive Prior : Type
  | uniform (minimum maximum : ℝ) (adaptive sort : Bool) (nfunc_min : ℤ)
  | gaussian (sigma : ℝ) (positive : Bool) (adaptive sort : Bool) (nfunc_min : ℤ)
  | exponential (lambd : ℝ) (adaptive sort : Bool) (nfunc_min : ℤ)
  | block (prior_blocks : List Prior) (block_sizes : List ℕ)
  | adfam (gg_1d_prior ta_1d_prior : Prior) (nfunc : ℕ)

/-- The loop of `BlockPrior.__call__` (priors.py lines 340-347), with the
member priors already turned into call functions.  `theta` starts as
`np.zeros(cube.shape)`; each block reads the view
`cube[start : start + size]` (numpy clips slices past the end), writes
its output into the same range of `theta`, and writes its possibly
mutated input back through the view into `cube`.  A missing size is the
IndexError of `block_sizes[i]`. -/
noncomputable def blockGoFns :
    List (List F → Option (List F × List F)) → List ℕ → List F → ℕ → List F →
      Option (List F × List F)
  | [], _, cube, _, theta => some (theta, cube)
  | _ :: _, [], _, _, _ => none
  | f :: fs, s :: ss, cube, start, theta =>
    match f ((cube.drop start).take s) with
    | none => none
    | some (th, subM) =>
        blockGoFns fs ss (writeSlice cube start subM) (start + s) (writeSlice theta start th)

open scoped Classical in
/-- Model of `__call__` for every prior variant: `BasePrior.__call__`
for the primitives, `BlockPrior.__call__` for `block`, and
`AdFamPrior.__call__` (priors.py lines 287-309) for `adfam`.  In the
`adfam` case `theta[0] = Uniform(0.5, 2.5)(cube[0])`, `theta[1:]` is
always the gg prior of the view `cube[1:]`, and when `theta[0] >= 1.5`
(a NaN selector compares false) the range `theta[1 : len - nfunc]` is
overwritten by the ta prior of the same view range of the (by then
possibly mutated) cube. -/
noncomputable def priorCall : Prior → List F → Option (List F × List F)
  | .uniform mn mx ad so nm, cube => basePriorCall (uniformCtp mn mx) ad so nm cube
  | .gaussian sg pos ad so nm, cube => basePriorCall (gaussianCtp sg pos) ad so nm cube
  | .exponential lam ad so nm, cube => basePriorCall (exponentialCtp lam) ad so nm cube
  | .block ps ss, cube =>
      blockGoFns (ps.attach.map (fun q => priorCall q.1)) ss cube 0
        (List.replicate cube.length (some 0))
  | .adfam gg ta nf, cube =>
      match cube with
      | [] => none
      | u0 :: rest =>
        match priorCall gg rest with
        | none => none
        | some (thT, restM) =>
          match u0 with
          | none => some ((none : F) :: thT, (none : F) :: restM)
          | some u =>
            let s : ℝ := 0.5 + (2.5 - 0.5) * u
            if (1.5 : ℝ) ≤ s then
              let m : ℕ := if nf = 0 then 0 else (rest.length + 1 - nf) - 1
              match priorCall ta (restM.take m) with
              | none => none
              | some (thTa, subM) =>
                  some (writeSlice (some s :: thT) 1 thTa,
                        writeSlice (some u :: restM) 1 subM)
            else
              some (some s :: thT, some u :: restM)
termination_by p _ => sizeOf p
decreasing_by
  · have := List.sizeOf_lt_of_mem q.2
    simp only [Prior.block.sizeOf_spec]
    omega
  · simp only [Prior.adfam.sizeOf_spec]
    omega
  · simp only [Prior.adfam.sizeOf_spec]
    omega

/-- Model of `BlockPrior.__init__` (priors.py lines 317-323): the assert
compares the number of prior blocks with the number of sizes and nothing
else; `none` models the AssertionError. -/
def mkBlockPrior (prior_blocks : List Prior) (block_sizes : List ℕ) : Option Prior :=
  if prior_blocks.length = block_sizes.length then
    some (.block prior_blocks block_sizes)
  else none

/-- Returns `true` iff no primitive inside the transform has both `adaptive` and
`sort` set, i.e. no constituent ever assigns into its input cube. -/
def noAdSort : Prior → Bool
  | .uniform _ _ ad so _ => !(ad && so)
  | .gaussian _ _ ad so _ => !(ad && so)
  | .exponential _ ad so _ => !(ad && so)
  | .block ps _ => ps.attach.all (fun q => noAdSort q.1)
  | .adfam gg ta _ => noAdSort gg && noAdSort ta
termination_by p => sizeOf p
decreasing_by
  · have := List.sizeOf_lt_of_mem q.2
    simp only [Prior.block.sizeOf_spec]
    omega
  · simp only [Prior.adfam.sizeOf_spec]
    omega
  · simp only [Prior.adfam.sizeOf_spec]
    omega

/-! Basic facts about `writeSlice`. -/

theorem writeSlice_length {α : Type} (l : List α) (i : ℕ) (v : List α) :
    (writeSlice l i v).length = l.length := by
  simp only [writeSlice, List.length_append, List.length_take, List.length_drop]
  omega

theorem writeSlice_self {α : Type} (l : List α) (i s : ℕ) :
    writeSlice l i ((l.drop i).take s) = l := by
  unfold writeSlice
  rw [List.take_take, List.length_take, List.length_drop]
  rw [min_comm (l.length - i) s]
  rw [show l.drop (i + s ⊓ (l.length - i)) = (l.drop i).drop (s ⊓ (l.length - i)) by
    rw [List.drop_drop]]
  rw [List.append_assoc, List.take_append_drop, List.take_append_drop]

theorem writeSlice_cons_succ {α : Type} (x : α) (l : List α) (i : ℕ) (v : List α) :
    writeSlice (x :: l) (i + 1) v = x :: writeSlice l i v := by
  simp only [writeSlice, List.take_succ_cons, List.length_cons, List.cons_append]
  rw [Nat.succ_sub_succ]
  rw [show i + 1 + v.length = (i + v.length) + 1 by omega]
  rw [List.drop_succ_cons]

theorem writeSlice_append {α : Type} (l : List α) (v : List α)
    (h : v.length ≤ l.length) : writeSlice l 0 v = v ++ l.drop v.length := by
  simp only [writeSlice, List.take_zero, List.nil_append, Nat.sub_zero, Nat.zero_add]
  rw [List.take_of_length_le h]

/-! Basic facts about `roundHalfEven`, the model of `np.round`. -/

theorem roundHalfEven_intCast (k : ℤ) : roundHalfEven (k : ℝ) = k := by
  unfold roundHalfEven
  rw [Int.floor_intCast]
  norm_num

theorem roundHalfEven_add_half (k : ℤ) :
    roundHalfEven ((k : ℝ) + 1 / 2) = if Even k then k else k + 1 := by
  have hf : ⌊(k : ℝ) + 1 / 2⌋ = k := by
    rw [Int.floor_eq_iff]
    constructor
    · linarith
    · linarith
  unfold roundHalfEven
  rw [hf]
  norm_num

theorem le_roundHalfEven {a : ℤ} {x : ℝ} (h : (a : ℝ) - 1 / 2 < x) :
    a ≤ roundHalfEven x := by
  have h1 : (⌊x⌋ : ℝ) ≤ x := Int.floor_le x
  have h2 : x < ⌊x⌋ + 1 := Int.lt_floor_add_one x
  unfold roundHalfEven
  split_ifs with c1 c2 c3
  · have : (a : ℝ) < (⌊x⌋ : ℝ) + 1 := by linarith
    exact_mod_cast Int.lt_add_one_iff.mp (by exact_mod_cast this)
  · have : (a : ℝ) < (⌊x⌋ : ℝ) + 1 + 1 := by linarith
    have h3 : a < ⌊x⌋ + 1 + 1 := by exact_mod_cast this
    omega
  · have hx : x - ⌊x⌋ = 1 / 2 := le_antisymm (not_lt.mp c2) (not_lt.mp c1)
    have : (a : ℝ) < (⌊x⌋ : ℝ) + 1 := by linarith
    exact_mod_cast Int.lt_add_one_iff.mp (by exact_mod_cast this)
  · have hx : x - ⌊x⌋ = 1 / 2 := le_antisymm (not_lt.mp c2) (not_lt.mp c1)
    have : (a : ℝ) < (⌊x⌋ : ℝ) + 1 := by linarith
    have h3 : a < ⌊x⌋ + 1 := by exact_mod_cast this
    omega

theorem roundHalfEven_le {b : ℤ} {x : ℝ} (h : x < (b : ℝ) + 1 / 2) :
    roundHalfEven x ≤ b := by
  have h1 : (⌊x⌋ : ℝ) ≤ x := Int.floor_le x
  unfold roundHalfEven
  split_ifs with c1 c2 c3
  · have : (⌊x⌋ : ℝ) < (b : ℝ) + 1 / 2 := by linarith
    have h3 : (⌊x⌋ : ℝ) < (b : ℝ) + 1 := by linarith
    exact Int.lt_add_one_iff.mp (by exact_mod_cast h3)
  · have : (⌊x⌋ : ℝ) + 1 / 2 < x := by linarith
    have h3 : (⌊x⌋ : ℝ) < (b : ℝ) := by linarith
    have h4 : ⌊x⌋ < b := by exact_mod_cast h3
    omega
  · have hx : x - ⌊x⌋ = 1 / 2 := le_antisymm (not_lt.mp c2) (not_lt.mp c1)
    have h3 : (⌊x⌋ : ℝ) < (b : ℝ) + 1 := by linarith
    exact Int.lt_add_one_iff.mp (by exact_mod_cast h3)
  · have hx : x - ⌊x⌋ = 1 / 2 := le_antisymm (not_lt.mp c2) (not_lt.mp c1)
    have h3 : (⌊x⌋ : ℝ) < (b : ℝ) := by linarith
    have h4 : ⌊x⌋ < b := by exact_mod_cast h3
    omega

/-! Facts about `forced_identifiability` on real arrays. -/

theorem getD_mem {α : Type} (l : List α) (n : ℕ) (d : α) (h : n < l.length) :
    l.getD n d ∈ l := by
  rw [List.getD_eq_getElem l d h]
  exact List.getElem_mem h

theorem forcedIdentAux_length (n : ℕ) (c : List ℝ) :
    (forcedIdentAux n c).length = c.length := by
  induction c generalizing n with
  | nil => simp [forcedIdentAux]
  | cons x r ih =>
    cases r with
    | nil => simp [forcedIdentAux]
    | cons y r2 =>
      simp only [forcedIdentAux, List.length_cons]
      rw [ih (n + 1)]
      simp

theorem forcedIdentAux_mem (n : ℕ) (c : List ℝ) (hc : ∀ x ∈ c, 0 ≤ x ∧ x ≤ 1) :
    ∀ y ∈ forcedIdentAux n c, 0 ≤ y ∧ y ≤ 1 := by
  induction c generalizing n with
  | nil => simp [forcedIdentAux]
  | cons x r ih =>
    have hx : 0 ≤ x ∧ x ≤ 1 := hc x (by simp)
    have he : (0 : ℝ) ≤ (1 : ℝ) / ((n : ℝ) + 1) := by positivity
    have hpow : 0 ≤ x ^ ((1 : ℝ) / ((n : ℝ) + 1)) ∧ x ^ ((1 : ℝ) / ((n : ℝ) + 1)) ≤ 1 :=
      ⟨Real.rpow_nonneg hx.1 _, Real.rpow_le_one hx.1 hx.2 he⟩
    cases r with
    | nil =>
      intro z hz
      simp only [forcedIdentAux, List.mem_singleton] at hz
      exact hz ▸ hpow
    | cons y r2 =>
      have hr : ∀ a ∈ y :: r2, 0 ≤ a ∧ a ≤ 1 := fun a ha => hc a (by simp [ha])
      have ihr := ih (n + 1) hr
      have hne : forcedIdentAux (n + 1) (y :: r2) ≠ [] := by
        intro hcon
        have := forcedIdentAux_length (n + 1) (y :: r2)
        rw [hcon] at this
        simp at this
      have hhead : (forcedIdentAux (n + 1) (y :: r2)).headD 0
          ∈ forcedIdentAux (n + 1) (y :: r2) := by
        cases hmatch : forcedIdentAux (n + 1) (y :: r2) with
        | nil => exact absurd hmatch hne
        | cons a t => simp
      have hh := ihr _ hhead
      intro z hz
      simp only [forcedIdentAux, List.mem_cons] at hz
      rcases hz with hz | hz
      · subst hz
        exact ⟨mul_nonneg hpow.1 hh.1, mul_le_one₀ hpow.2 hh.1 hh.2⟩
      · exact ihr z hz

theorem forcedIdentAux_getD_step (n : ℕ) (c : List ℝ) (i : ℕ) (h : i + 1 < c.length) :
    (forcedIdentAux n c).getD i 0 =
      (c.getD i 0) ^ ((1 : ℝ) / ((n : ℝ) + (i : ℝ) + 1)) *
        (forcedIdentAux n c).getD (i + 1) 0 := by
  induction c generalizing n i with
  | nil => simp at h
  | cons x r ih =>
    cases r with
    | nil => simp at h
    | cons y r2 =>
      cases i with
      | zero =>
        have hne : forcedIdentAux (n + 1) (y :: r2) ≠ [] := by
          intro hcon
          have := forcedIdentAux_length (n + 1) (y :: r2)
          rw [hcon] at this
          simp at this
        simp only [forcedIdentAux, List.getD_cons_zero, List.getD_cons_succ]
        cases hmatch : forcedIdentAux (n + 1) (y :: r2) with
        | nil => exact absurd hmatch hne
        | cons a t =>
          simp only [List.headD_cons, List.getD_cons_zero]
          norm_num
      | succ j =>
        have hj : j + 1 < (y :: r2).length := by
          simp only [List.length_cons] at h ⊢
          omega
        simp only [forcedIdentAux, List.getD_cons_succ]
        rw [ih (n + 1) j hj]
        congr 2
        push_cast
        ring

theorem forcedIdentAux_getD_last (n : ℕ) (c : List ℝ) (hc : c ≠ []) :
    (forcedIdentAux n c).getD (c.length - 1) 0 =
      (c.getD (c.length - 1) 0) ^ ((1 : ℝ) / ((n : ℝ) + (c.length : ℝ))) := by
  induction c generalizing n with
  | nil => exact absurd rfl hc
  | cons x r ih =>
    cases r with
    | nil =>
      simp only [forcedIdentAux, List.length_singleton, List.getD_cons_zero]
      norm_num
    | cons y r2 =>
      have hr : (y :: r2) ≠ [] := by simp
      have hlen : (x :: y :: r2).length - 1 = ((y :: r2).length - 1) + 1 := by
        simp only [List.length_cons]
        omega
      simp only [forcedIdentAux]
      rw [hlen, List.getD_cons_succ, List.getD_cons_succ, ih (n + 1) hr]
      congr 2
      simp only [List.length_cons]
      push_cast
      ring

theorem forcedIdentAux_adj (n : ℕ) (c : List ℝ) (hc : ∀ x ∈ c, 0 ≤ x ∧ x ≤ 1)
    (i : ℕ) (h : i + 1 < c.length) :
    (forcedIdentAux n c).getD i 0 ≤ (forcedIdentAux n c).getD (i + 1) 0 := by
  rw [forcedIdentAux_getD_step n c i h]
  have hci : c.getD i 0 ∈ c := getD_mem c i 0 (by omega)
  have hcb := hc _ hci
  have he : (0 : ℝ) ≤ (1 : ℝ) / ((n : ℝ) + (i : ℝ) + 1) := by positivity
  have hnext : 0 ≤ (forcedIdentAux n c).getD (i + 1) 0 := by
    have hmem : (forcedIdentAux n c).getD (i + 1) 0 ∈ forcedIdentAux n c := by
      apply getD_mem
      rw [forcedIdentAux_length]
      omega
    exact (forcedIdentAux_mem n c hc _ hmem).1
  exact mul_le_of_le_one_left hnext (Real.rpow_le_one hcb.1 hcb.2 he)

/-! Structural facts about the call model. -/

theorem fiAuxF_length (n : ℕ) (c : List F) : (fiAuxF n c).length = c.length := by
  induction c generalizing n with
  | nil => simp [fiAuxF]
  | cons x r ih =>
    cases r with
    | nil => simp [fiAuxF]
    | cons y r2 =>
      simp only [fiAuxF, List.length_cons]
      rw [ih (n + 1)]
      simp

theorem adaptive_transform_ne_nil {cube : List F} {nm : ℤ} {p : ℤ × List F}
    (h : adaptive_transform cube nm = some p) : cube ≠ [] := by
  cases cube with
  | nil => simp [adaptive_transform] at h
  | cons u0 rest => simp

theorem blockGoFns_length (fs : List (List F → Option (List F × List F)))
    (ss : List ℕ) (cube : List F) (start : ℕ) (theta : List F)
    (out : List F × List F) (h : blockGoFns fs ss cube start theta = some out) :
    out.1.length = theta.length ∧ out.2.length = cube.length := by
  induction fs generalizing ss cube start theta with
  | nil =>
    simp only [blockGoFns, Option.some.injEq] at h
    rw [← h]
    exact ⟨rfl, rfl⟩
  | cons f fs ih =>
    cases ss with
    | nil => simp [blockGoFns] at h
    | cons s ss2 =>
      rcases hmatch : f ((cube.drop start).take s) with _ | ⟨th, subM⟩
      · rw [blockGoFns, hmatch] at h
        simp at h
      · rw [blockGoFns, hmatch] at h
        have := ih ss2 (writeSlice cube start subM) (start + s) (writeSlice theta start th) h
        rw [writeSlice_length, writeSlice_length] at this
        exact this

theorem blockGoFns_pure (fs : List (List F → Option (List F × List F)))
    (ss : List ℕ) (cube : List F) (start : ℕ) (theta : List F)
    (out : List F × List F)
    (hfs : ∀ f ∈ fs, ∀ c o, f c = some o → o.2 = c)
    (h : blockGoFns fs ss cube start theta = some out) : out.2 = cube := by
  induction fs generalizing ss cube start theta with
  | nil =>
    simp only [blockGoFns, Option.some.injEq] at h
    rw [← h]
  | cons f fs ih =>
    cases ss with
    | nil => simp [blockGoFns] at h
    | cons s ss2 =>
      rcases hmatch : f ((cube.drop start).take s) with _ | ⟨th, subM⟩
      · rw [blockGoFns, hmatch] at h
        simp at h
      · rw [blockGoFns, hmatch] at h
        dsimp only at h
        have hsub : subM = (cube.drop start).take s :=
          hfs f (by simp) _ _ hmatch
        rw [hsub, writeSlice_self] at h
        exact ih ss2 cube (start + s) (writeSlice theta start th)
          (fun f hf => hfs f (by simp [hf])) h

theorem basePriorCall_length (ctp : List F → List F)
    (hctp : ∀ l, (ctp l).length = l.length) (ad so : Bool) (nm : ℤ)
    (cube : List F) (out : List F × List F)
    (h : basePriorCall ctp ad so nm cube = some out) :
    out.1.length = cube.length ∧ out.2.length = cube.length := by
  unfold basePriorCall at h
  cases ad with
  | false =>
    simp only [Bool.false_eq_true, if_false] at h
    cases so with
    | false =>
      simp only [Bool.false_eq_true, if_false, Option.some.injEq] at h
      rw [← h]
      exact ⟨hctp cube, rfl⟩
    | true =>
      simp only [if_true] at h
      rcases hemp : cube.isEmpty with _ | _
      · rw [hemp] at h
        simp only [Bool.false_eq_true, if_false, Option.some.injEq] at h
        rw [← h]
        refine ⟨?_, rfl⟩
        rw [hctp]
        exact fiAuxF_length 0 cube
      · rw [hemp] at h
        simp at h
  | true =>
    simp only [if_true] at h
    rcases hat : adaptive_transform cube nm with _ | ⟨nfunc, theta⟩
    · rw [hat] at h
      rcases hh : cube.head? with _ | u0
      · rw [hh] at h
        simp at h
      · rw [hh] at h
        cases u0 with
        | none =>
          simp only [Option.some.injEq] at h
          rw [← h]
          exact ⟨List.length_replicate _ _, rfl⟩
        | some u => simp at h
    · rw [hat] at h
      have hne : cube ≠ [] := adaptive_transform_ne_nil hat
      have hpos : 1 ≤ cube.length := by
        cases cube with
        | nil => exact absurd rfl hne
        | cons a t => simp
      cases so with
      | false =>
        simp only [Bool.false_eq_true, if_false, Option.some.injEq] at h
        rw [← h]
        constructor
        · simp only [List.length_cons, hctp, List.length_drop]
          omega
        · rfl
      | true =>
        simp only [if_true] at h
        rcases hemp : ((cube.drop 1).take nfunc.toNat).isEmpty with _ | _
        · rw [hemp] at h
          simp only [Bool.false_eq_true, if_false, Option.some.injEq] at h
          rw [← h]
          constructor
          · simp only [List.length_cons, hctp, List.length_drop, writeSlice_length]
            omega
          · exact writeSlice_length _ _ _
        · rw [hemp] at h
          simp at h

theorem basePriorCall_pure (ctp : List F → List F) (ad so : Bool) (nm : ℤ)
    (cube : List F) (out : List F × List F) (hns : (!(ad && so)) = true)
    (h : basePriorCall ctp ad so nm cube = some out) : out.2 = cube := by
  unfold basePriorCall at h
  cases ad with
  | false =>
    simp only [Bool.false_eq_true, if_false] at h
    cases so with
    | false =>
      simp only [Bool.false_eq_true, if_false, Option.some.injEq] at h
      rw [← h]
    | true =>
      simp only [if_true] at h
      rcases hemp : cube.isEmpty with _ | _
      · rw [hemp] at h
        simp only [Bool.false_eq_true, if_false, Option.some.injEq] at h
        rw [← h]
      · rw [hemp] at h
        simp at h
  | true =>
    cases so with
    | false =>
      simp only [if_true] at h
      rcases hat : adaptive_transform cube nm with _ | ⟨nfunc, theta⟩
      · rw [hat] at h
        rcases hh : cube.head? with _ | u0
        · rw [hh] at h
          simp at h
        · rw [hh] at h
          cases u0 with
          | none =>
            simp only [Option.some.injEq] at h
            rw [← h]
          | some u => simp at h
      · rw [hat] at h
        simp only [Bool.false_eq_true, if_false, Option.some.injEq] at h
        rw [← h]
    | true => simp at hns

theorem priorCall_length (p : Prior) (cube : List F) (out : List F × List F)
    (h : priorCall p cube = some out) :
    out.1.length = cube.length ∧ out.2.length = cube.length := by
  have main : ∀ (N : ℕ) (p : Prior), sizeOf p ≤ N →
      ∀ (cube : List F) (out : List F × List F), priorCall p cube = some out →
        out.1.length = cube.length ∧ out.2.length = cube.length := by
    intro N
    induction N with
    | zero =>
      intro p hp
      exfalso
      cases p <;> simp_arith at hp
    | succ n ih =>
      intro p hp cube out h
      cases p with
      | uniform mn mx ad so nm =>
        rw [priorCall] at h
        exact basePriorCall_length _ (fun l => by simp [uniformCtp]) _ _ _ _ _ h
      | gaussian sg pos ad so nm =>
        rw [priorCall] at h
        exact basePriorCall_length _ (fun l => by simp [gaussianCtp]) _ _ _ _ _ h
      | exponential lam ad so nm =>
        rw [priorCall] at h
        exact basePriorCall_length _ (fun l => by simp [exponentialCtp]) _ _ _ _ _ h
      | block ps ss =>
        rw [priorCall] at h
        have hb := blockGoFns_length _ _ _ _ _ _ h
        rw [List.length_replicate] at hb
        exact hb
      | adfam gg ta nf =>
        have hsz : sizeOf gg ≤ n := by
          rw [Prior.adfam.sizeOf_spec] at hp
          omega
        cases cube with
        | nil =>
          rw [priorCall] at h
          exact absurd h (by simp)
        | cons u0 rest =>
          rw [priorCall] at h
          rcases hgg : priorCall gg rest with _ | ⟨thT, restM⟩ <;> rw [hgg] at h <;>
            dsimp only at h
          · exact absurd h (by simp)
          · have hT := ih gg hsz rest _ hgg
            cases u0 with
            | none =>
              simp only [Option.some.injEq] at h
              rw [← h]
              simp only [List.length_cons]
              exact ⟨by rw [hT.1], by rw [hT.2]⟩
            | some u =>
              dsimp only at h
              split at h
              · split at h
                · exact absurd h (by simp)
                · simp only [Option.some.injEq] at h
                  rw [← h]
                  rw [writeSlice_length, writeSlice_length]
                  simp only [List.length_cons]
                  exact ⟨by rw [hT.1], by rw [hT.2]⟩
              · simp only [Option.some.injEq] at h
                rw [← h]
                simp only [List.length_cons]
                exact ⟨by rw [hT.1], by rw [hT.2]⟩
  exact main (sizeOf p) p le_rfl cube out h

theorem priorCall_pure (p : Prior) (cube : List F) (out : List F × List F)
    (hns : noAdSort p = true) (h : priorCall p cube = some out) : out.2 = cube := by
  have main : ∀ (N : ℕ) (p : Prior), sizeOf p ≤ N →
      ∀ (cube : List F) (out : List F × List F), noAdSort p = true →
        priorCall p cube = some out → out.2 = cube := by
    intro N
    induction N with
    | zero =>
      intro p hp
      exfalso
      cases p <;> simp_arith at hp
    | succ n ih =>
      intro p hp cube out hns h
      cases p with
      | uniform mn mx ad so nm =>
        rw [priorCall] at h
        rw [noAdSort] at hns
        exact basePriorCall_pure _ _ _ _ _ _ hns h
      | gaussian sg pos ad so nm =>
        rw [priorCall] at h
        rw [noAdSort] at hns
        exact basePriorCall_pure _ _ _ _ _ _ hns h
      | exponential lam ad so nm =>
        rw [priorCall] at h
        rw [noAdSort] at hns
        exact basePriorCall_pure _ _ _ _ _ _ hns h
      | block ps ss =>
        rw [priorCall] at h
        rw [noAdSort] at hns
        refine blockGoFns_pure _ _ _ _ _ _ ?_ h
        intro f hf c o hco
        rw [List.mem_map] at hf
        obtain ⟨q, hq, rfl⟩ := hf
        have hszq : sizeOf q.1 ≤ n := by
          have h1 := List.sizeOf_lt_of_mem q.2
          rw [Prior.block.sizeOf_spec] at hp
          omega
        have hnsq : noAdSort q.1 = true := by
          rw [List.all_eq_true] at hns
          exact hns q (List.mem_attach ps q)
        exact ih q.1 hszq c o hnsq hco
      | adfam gg ta nf =>
        rw [noAdSort] at hns
        rw [Bool.and_eq_true] at hns
        have hszg : sizeOf gg ≤ n := by
          rw [Prior.adfam.sizeOf_spec] at hp
          omega
        have hszt : sizeOf ta ≤ n := by
          rw [Prior.adfam.sizeOf_spec] at hp
          omega
        cases cube with
        | nil =>
          rw [priorCall] at h
          exact absurd h (by simp)
        | cons u0 rest =>
          rw [priorCall] at h
          rcases hgg : priorCall gg rest with _ | ⟨thT, restM⟩ <;> rw [hgg] at h <;>
            dsimp only at h
          · exact absurd h (by simp)
          · have hR : restM = rest := ih gg hszg rest _ hns.1 hgg
            cases u0 with
            | none =>
              simp only [Option.some.injEq] at h
              rw [← h, hR]
            | some u =>
              dsimp only at h
              split at h
              · split at h
                · exact absurd h (by simp)
                · rename_i thTa subM hta
                  have hS : subM = restM.take _ := ih ta hszt _ _ hns.2 hta
                  have hws : ∀ (v : List F) (m : ℕ),
                      writeSlice (some u :: v) 1 (v.take m) = some u :: v := by
                    intro v m
                    rw [writeSlice_cons_succ]
                    rw [show v.take m = (v.drop 0).take m by rw [List.drop_zero]]
                    rw [writeSlice_self]
                  simp only [Option.some.injEq] at h
                  rw [← h]
                  dsimp only
                  rw [hS, hR]
                  exact hws rest _
              · simp only [Option.some.injEq] at h
                rw [← h, hR]
  exact main (sizeOf p) p le_rfl cube out hns h

/-! Evaluation lemmas used by the concrete scenarios. -/

theorem priorCall_block_eq (ps : List Prior) (ss : List ℕ) (cube : List F) :
    priorCall (.block ps ss) cube =
      blockGoFns (ps.map priorCall) ss cube 0 (List.replicate cube.length (some 0)) := by
  rw [priorCall, List.attach_map_val ps priorCall]

theorem basePriorCall_nanHead (ctp : List F → List F) (so : Bool) (nm : ℤ)
    (rest : List F) :
    basePriorCall ctp true so nm ((none : F) :: rest) =
      some (List.replicate (rest.length + 1) none, (none : F) :: rest) := by
  unfold basePriorCall
  simp [adaptive_transform]

theorem basePriorCall_plain (ctp : List F → List F) (nm : ℤ) (cube : List F) :
    basePriorCall ctp false false nm cube = some (ctp cube, cube) := by
  simp [basePriorCall]

theorem roundHalfEven_one : roundHalfEven (1 : ℝ) = 1 := by
  rw [show (1 : ℝ) = ((1 : ℤ) : ℝ) by norm_num, roundHalfEven_intCast]

theorem roundHalfEven_two : roundHalfEven (2 : ℝ) = 2 := by
  rw [show (2 : ℝ) = ((2 : ℤ) : ℝ) by norm_num, roundHalfEven_intCast]

theorem roundHalfEven_half : roundHalfEven ((1 : ℝ) / 2) = 0 := by
  rw [show (1 : ℝ) / 2 = ((0 : ℤ) : ℝ) + 1 / 2 by norm_num, roundHalfEven_add_half]
  norm_num

theorem rpow_sixteenth : ((1 : ℝ) / 16) ^ ((1 : ℝ) / 2) = 1 / 4 := by
  rw [show ((1 : ℝ) / 16) = ((1 : ℝ) / 4) ^ (2 : ℝ) by
    rw [show (2 : ℝ) = ((2 : ℕ) : ℝ) by norm_num, Real.rpow_natCast]
    norm_num]
  rw [← Real.rpow_mul (by norm_num)]
  norm_num

theorem fiF_eval_main : fiF [some (1 : ℝ), some ((1 : ℝ) / 16)] =
    [some ((1 : ℝ) / 4), some ((1 : ℝ) / 4)] := by
  simp only [fiF, fiAuxF, fpow, fmul, Option.map_some', List.headD_cons]
  rw [show ((1 : ℝ) / (((1 : ℕ) : ℝ) + 1)) = (1 : ℝ) / 2 by norm_num]
  rw [rpow_sixteenth, Real.one_rpow]
  norm_num

theorem adaptive_transform_some_head (u : ℝ) (rest : List F) (nm : ℤ) :
    adaptive_transform (some u :: rest) nm =
      some (roundHalfEven (((nm : ℝ) - 0.5) + (1 + (rest.length : ℝ) - (nm : ℝ)) * u),
            some (((nm : ℝ) - 0.5) + (1 + (rest.length : ℝ) - (nm : ℝ)) * u)
              :: List.replicate rest.length (some 0)) := by
  simp only [adaptive_transform]
  norm_num

theorem at_gg_main :
    adaptive_transform [some ((3 : ℝ) / 4), some (1 : ℝ), some ((1 : ℝ) / 16)] 1 =
      some (2, [some (2 : ℝ), some 0, some 0]) := by
  rw [adaptive_transform_some_head]
  norm_num
  exact ⟨roundHalfEven_two, by simp [List.replicate]⟩

theorem pc_gg_main :
    priorCall (.uniform 0 1 true true 1) [some ((3 : ℝ) / 4), some 1, some (1 / 16)] =
      some ([some (2 : ℝ), some (1 / 4), some (1 / 4)],
            [some ((3 : ℝ) / 4), some (1 / 4), some (1 / 4)]) := by
  rw [priorCall]
  unfold basePriorCall
  rw [at_gg_main]
  simp only [show ((2 : ℤ).toNat) = 2 from rfl]
  norm_num [fiF_eval_main, writeSlice, uniformCtp]

theorem priorCall_adfam_nanHead (gg ta : Prior) (nf : ℕ) (rest thT restM : List F)
    (hgg : priorCall gg rest = some (thT, restM)) :
    priorCall (.adfam gg ta nf) ((none : F) :: rest) =
      some ((none : F) :: thT, (none : F) :: restM) := by
  rw [priorCall, hgg]

theorem priorCall_adfam_lt (gg ta : Prior) (nf : ℕ) (u : ℝ) (rest thT restM : List F)
    (hgg : priorCall gg rest = some (thT, restM)) (hu : u < 1 / 2) :
    priorCall (.adfam gg ta nf) (some u :: rest) =
      some (some (0.5 + (2.5 - 0.5) * u) :: thT, some u :: restM) := by
  rw [priorCall, hgg]
  dsimp only
  rw [if_neg (by norm_num; linarith)]

theorem priorCall_adfam_ge (gg ta : Prior) (nf : ℕ) (u : ℝ)
    (rest thT restM thTa subM : List F)
    (hgg : priorCall gg rest = some (thT, restM)) (hnf : 1 ≤ nf) (hu : 1 / 2 ≤ u)
    (hta : priorCall ta (restM.take (rest.length - nf)) = some (thTa, subM)) :
    priorCall (.adfam gg ta nf) (some u :: rest) =
      some (writeSlice (some (0.5 + (2.5 - 0.5) * u) :: thT) 1 thTa,
            writeSlice (some u :: restM) 1 subM) := by
  rw [priorCall, hgg]
  dsimp only
  rw [if_pos (by norm_num; linarith)]
  rw [show (if nf = 0 then 0 else rest.length + 1 - nf - 1) = rest.length - nf by
    rw [if_neg (by omega)]
    omega]
  rw [hta]

theorem at_zero_eval :
    adaptive_transform [some (0 : ℝ), some 0] 1 = some (0, [some ((1 : ℝ) / 2), some 0]) := by
  rw [adaptive_transform_some_head]
  norm_num [List.replicate]
  exact roundHalfEven_half

/-! Claim theorems. -/

/-- Claim C1, counterexample: on the hypercube sub-vector `[0, 1]` (length
2, all entries in `[0, 1]`) the ordering transform returns `[0, 1]`,
which is not non-increasing left to right: output index 0 is strictly
below output index 1. -/
theorem C1_counterexample :
    (∀ x ∈ [(0 : ℝ), 1], 0 ≤ x ∧ x ≤ 1) ∧
    ¬ ((forced_identifiability [(0 : ℝ), 1]).getD 0 0 ≥
        (forced_identifiability [(0 : ℝ), 1]).getD 1 0) := by
  have hev : forced_identifiability [(0 : ℝ), 1] = [0, 1] := by
    simp only [forced_identifiability, forcedIdentAux, List.headD_cons]
    rw [Real.one_rpow]
    norm_num
  constructor
  · intro x hx
    simp only [List.mem_cons, List.mem_singleton] at hx
    rcases hx with rfl | hx
    · norm_num
    · rcases hx with rfl | hx
      · norm_num
      · simp at hx
  · rw [hev]
    norm_num

/-- Claim C1, amended: for every hypercube sub-vector with entries in
`[0, 1]`, the ordering transform output is non-DEcreasing left to right
(`o[0] <= o[1] <= ... <= o[K-1]`), with every element in `[0, 1]`. -/
theorem C1_amended (c : List ℝ) (hc : ∀ x ∈ c, 0 ≤ x ∧ x ≤ 1) :
    (∀ i : ℕ, i + 1 < c.length →
      (forced_identifiability c).getD i 0 ≤ (forced_identifiability c).getD (i + 1) 0) ∧
    (∀ y ∈ forced_identifiability c, 0 ≤ y ∧ y ≤ 1) :=
  ⟨fun i hi => forcedIdentAux_adj 0 c hc i hi, forcedIdentAux_mem 0 c hc⟩

/-- Witness for the amended claim C1 at the concrete input `[1/2, 1]`. -/
theorem C1_amended_witness :
    (∀ x ∈ [(1 : ℝ) / 2, 1], 0 ≤ x ∧ x ≤ 1) ∧
    ((∀ i : ℕ, i + 1 < ([(1 : ℝ) / 2, 1] : List ℝ).length →
      (forced_identifiability [(1 : ℝ) / 2, 1]).getD i 0 ≤
        (forced_identifiability [(1 : ℝ) / 2, 1]).getD (i + 1) 0) ∧
    (∀ y ∈ forced_identifiability [(1 : ℝ) / 2, 1], 0 ≤ y ∧ y ≤ 1)) := by
  have hc : ∀ x ∈ [(1 : ℝ) / 2, 1], 0 ≤ x ∧ x ≤ 1 := by
    intro x hx
    simp only [List.mem_cons, List.mem_singleton] at hx
    rcases hx with rfl | hx
    · norm_num
    · rcases hx with rfl | hx
      · norm_num
      · simp at hx
  exact ⟨hc, C1_amended [(1 : ℝ) / 2, 1] hc⟩

/-- Claim C2, counterexample: with `nfunc_min = 1` and `cube = [0, 0]`
(so `D = 2` and `cube[0] = 0` in `[0, 1]`), `adaptive_transform` returns
`nfunc = 0`, violating `nfunc_min <= nfunc` and the claimed boundary
value `nfunc = nfunc_min` at `cube[0] = 0.0`. -/
theorem C2_counterexample :
    adaptive_transform [some (0 : ℝ), some 0] 1 = some (0, [some ((1 : ℝ) / 2), some 0]) ∧
    ¬ ((1 : ℤ) ≤ 0) := by
  exact ⟨at_zero_eval, by norm_num⟩

/-- Claim C2, amended: with half-to-even rounding the bounds
`nfunc_min <= nfunc <= D - 1` hold for `cube[0]` in the OPEN interval
`(0, 1)` (given `nfunc_min <= nfunc_max = D - 1`); `cube[0]` close
enough below `1.0` still yields `nfunc = D - 1`; but `cube[0] = 0.0`
yields the half-to-even rounding of `nfunc_min - 0.5`, which is
`nfunc_min - 1` whenever `nfunc_min - 1` is even. -/
theorem C2_amended (nm : ℤ) (u : ℝ) (rest : List F) (n : ℤ) (th : List F)
    (hnm : nm ≤ (rest.length : ℤ))
    (h : adaptive_transform (some u :: rest) nm = some (n, th)) :
    (0 < u → u < 1 → nm ≤ n ∧ n ≤ (rest.length : ℤ)) ∧
    (((rest.length : ℝ) - (nm : ℝ)) / (1 + (rest.length : ℝ) - (nm : ℝ)) < u → u < 1 →
      n = (rest.length : ℤ)) ∧
    (u = 0 → n = if Even (nm - 1) then nm - 1 else nm) := by
  rw [adaptive_transform_some_head] at h
  simp only [Option.some.injEq, Prod.mk.injEq] at h
  obtain ⟨hn, -⟩ := h
  have hnmR : (nm : ℝ) ≤ (rest.length : ℝ) := by exact_mod_cast hnm
  have hc : (0 : ℝ) < 1 + (rest.length : ℝ) - (nm : ℝ) := by linarith
  refine ⟨?_, ?_, ?_⟩
  · intro h0 h1
    constructor
    · rw [← hn]
      apply le_roundHalfEven
      have := mul_pos hc h0
      norm_num
      nlinarith
    · rw [← hn]
      apply roundHalfEven_le
      have := mul_lt_mul_of_pos_left h1 hc
      push_cast
      norm_num
      nlinarith
  · intro hgt h1
    have hgt2 : (rest.length : ℝ) - (nm : ℝ) <
        (1 + (rest.length : ℝ) - (nm : ℝ)) * u := by
      rw [div_lt_iff₀ hc] at hgt
      linarith [hgt]
    have hge : (rest.length : ℤ) ≤ n := by
      rw [← hn]
      apply le_roundHalfEven
      push_cast
      norm_num
      nlinarith
    have hle : n ≤ (rest.length : ℤ) := by
      rw [← hn]
      apply roundHalfEven_le
      have := mul_lt_mul_of_pos_left h1 hc
      push_cast
      norm_num
      nlinarith
    omega
  · intro h0
    subst h0
    rw [← hn]
    rw [show ((nm : ℝ) - 0.5) + (1 + (rest.length : ℝ) - (nm : ℝ)) * 0 =
      ((nm - 1 : ℤ) : ℝ) + 1 / 2 by push_cast; ring]
    rw [roundHalfEven_add_half]
    split_ifs
    · rfl
    · omega

/-- Witness for the amended claim C2 at `nfunc_min = 1`,
`cube = [1/2, 0]`. -/
theorem C2_amended_witness :
    (1 : ℤ) ≤ (([some (0 : ℝ)] : List F).length : ℤ) ∧
    adaptive_transform [some ((1 : ℝ) / 2), some 0] 1 = some (1, [some (1 : ℝ), some 0]) ∧
    ((1 : ℤ) ≤ 1 ∧ (1 : ℤ) ≤ (([some (0 : ℝ)] : List F).length : ℤ)) := by
  have hnm : (1 : ℤ) ≤ (([some (0 : ℝ)] : List F).length : ℤ) := by norm_num
  have heq : adaptive_transform [some ((1 : ℝ) / 2), some 0] 1 =
      some (1, [some (1 : ℝ), some 0]) := by
    rw [adaptive_transform_some_head]
    norm_num [List.replicate]
    exact roundHalfEven_one
  exact ⟨hnm, heq,
    (C2_amended 1 (1 / 2) [some 0] 1 [some (1 : ℝ), some 0] hnm heq).1
      (by norm_num) (by norm_num)⟩

/-- Claim C10: `adaptive_transform` rounds the leading physical value
with round-half-to-even: when that value is exactly `k + 1/2` the
returned count is the even member of `{k, k + 1}`; in particular with
`nfunc_min = 1` and `cube[0] = 0` the leading value is `0.5` and
`nfunc = 0`. -/
theorem C10_round_half_even (nm : ℤ) (u : ℝ) (rest : List F) (n : ℤ) (th : List F) (k : ℤ)
    (h : adaptive_transform (some u :: rest) nm = some (n, th))
    (hhalf : ((nm : ℝ) - 0.5) + (1 + (rest.length : ℝ) - (nm : ℝ)) * u = (k : ℝ) + 1 / 2) :
    (Even n ∧ (n = k ∨ n = k + 1)) ∧
    adaptive_transform [some (0 : ℝ), some 0] 1 = some (0, [some ((1 : ℝ) / 2), some 0]) := by
  refine ⟨?_, at_zero_eval⟩
  rw [adaptive_transform_some_head] at h
  simp only [Option.some.injEq, Prod.mk.injEq] at h
  obtain ⟨hn, -⟩ := h
  rw [hhalf, roundHalfEven_add_half] at hn
  rcases Int.even_or_odd k with he | ho
  · rw [if_pos he] at hn
    rw [← hn]
    exact ⟨he, Or.inl rfl⟩
  · rw [if_neg (Int.not_even_iff_odd.mpr ho)] at hn
    rw [← hn]
    exact ⟨Int.even_add_one.mpr (Int.not_even_iff_odd.mpr ho), Or.inr rfl⟩

/-- Witness for claim C10 at `nfunc_min = 1`, `cube = [0, 0]`, `k = 0`. -/
theorem C10_round_half_even_witness :
    adaptive_transform [some (0 : ℝ), some 0] 1 = some (0, [some ((1 : ℝ) / 2), some 0]) ∧
    (((1 : ℤ) : ℝ) - 0.5) + (1 + (([some (0 : ℝ)] : List F).length : ℝ) - ((1 : ℤ) : ℝ)) * 0 =
      ((0 : ℤ) : ℝ) + 1 / 2 ∧
    ((Even (0 : ℤ) ∧ ((0 : ℤ) = 0 ∨ (0 : ℤ) = 0 + 1)) ∧
      adaptive_transform [some (0 : ℝ), some 0] 1 = some (0, [some ((1 : ℝ) / 2), some 0])) := by
  have hh : (((1 : ℤ) : ℝ) - 0.5) +
      (1 + (([some (0 : ℝ)] : List F).length : ℝ) - ((1 : ℤ) : ℝ)) * 0 =
      ((0 : ℤ) : ℝ) + 1 / 2 := by norm_num
  exact ⟨at_zero_eval, hh,
    C10_round_half_even 1 0 [some 0] 0 [some ((1 : ℝ) / 2), some 0] 0 at_zero_eval hh⟩

theorem sqrt_half_bounds :
    (0.7071 : ℝ) < ((1 : ℝ) / 2) ^ ((1 : ℝ) / 2) ∧
      ((1 : ℝ) / 2) ^ ((1 : ℝ) / 2) < (0.7072 : ℝ) := by
  rw [← Real.sqrt_eq_rpow]
  constructor
  · exact (Real.lt_sqrt (by norm_num)).mpr (by norm_num)
  · exact (Real.sqrt_lt' (by norm_num)).mpr (by norm_num)

theorem fi_concrete : forced_identifiability [(1 : ℝ) / 4, 1 / 2, 1] =
    [(1 / 4) * (((1 : ℝ) / 2) ^ ((1 : ℝ) / 2) * 1), ((1 : ℝ) / 2) ^ ((1 : ℝ) / 2) * 1,
      (1 : ℝ)] := by
  simp only [forced_identifiability, forcedIdentAux, List.headD_cons]
  rw [Real.one_rpow]
  norm_num [Real.rpow_one]

/-- Claim C7: the ordering transform computes
`o[K-1] = c[K-1] ^ (1/K)` and, for `n` below `K-1`,
`o[n] = c[n] ^ (1/(n+1)) * o[n+1]`; on `[0.25, 0.5, 1.0]` it returns
approximately `[0.1768, 0.7071, 1.0]`. -/
theorem C7_recurrence (c : List ℝ) (hc : c ≠ []) :
    ((forced_identifiability c).getD (c.length - 1) 0 =
        (c.getD (c.length - 1) 0) ^ ((1 : ℝ) / (c.length : ℝ))) ∧
    (∀ n : ℕ, n + 1 < c.length →
      (forced_identifiability c).getD n 0 =
        (c.getD n 0) ^ ((1 : ℝ) / ((n : ℝ) + 1)) *
          (forced_identifiability c).getD (n + 1) 0) ∧
    |(forced_identifiability [(1 : ℝ) / 4, 1 / 2, 1]).getD 0 0 - 0.1768| < 0.001 ∧
    |(forced_identifiability [(1 : ℝ) / 4, 1 / 2, 1]).getD 1 0 - 0.7071| < 0.001 ∧
    (forced_identifiability [(1 : ℝ) / 4, 1 / 2, 1]).getD 2 0 = 1 := by
  have hs := sqrt_half_bounds
  refine ⟨?_, ?_, ?_, ?_, ?_⟩
  · simpa using forcedIdentAux_getD_last 0 c hc
  · intro n h
    simpa using forcedIdentAux_getD_step 0 c n h
  · rw [fi_concrete]
    simp only [List.getD_cons_zero]
    rw [abs_sub_lt_iff]
    constructor <;> nlinarith [hs.1, hs.2]
  · rw [fi_concrete]
    rw [show ∀ (a b c d : ℝ), ([a, b, c] : List ℝ).getD 1 d = b from fun a b c d => rfl]
    rw [abs_sub_lt_iff]
    constructor <;> nlinarith [hs.1, hs.2]
  · rw [fi_concrete]
    rw [show ∀ (a b c d : ℝ), ([a, b, c] : List ℝ).getD 2 d = c from fun a b c d => rfl]

/-- Witness for claim C7 at the concrete input `[1/4, 1/2, 1]`. -/
theorem C7_recurrence_witness :
    ([(1 : ℝ) / 4, 1 / 2, 1] : List ℝ) ≠ [] ∧
    (forced_identifiability [(1 : ℝ) / 4, 1 / 2, 1]).getD
        (([(1 : ℝ) / 4, 1 / 2, 1] : List ℝ).length - 1) 0 =
      (([(1 : ℝ) / 4, 1 / 2, 1] : List ℝ).getD
          (([(1 : ℝ) / 4, 1 / 2, 1] : List ℝ).length - 1) 0) ^
        ((1 : ℝ) / (([(1 : ℝ) / 4, 1 / 2, 1] : List ℝ).length : ℝ)) := by
  have hne : ([(1 : ℝ) / 4, 1 / 2, 1] : List ℝ) ≠ [] := by simp
  exact ⟨hne, (C7_recurrence [(1 : ℝ) / 4, 1 / 2, 1] hne).1⟩

/-- Claim C8: for every prior variant and every cube on which the call
returns, the physical output vector has the same length as the input
cube. -/
theorem C8_dimension (p : Prior) (cube : List F) (out : List F × List F)
    (h : priorCall p cube = some out) : out.1.length = cube.length :=
  (priorCall_length p cube out h).1

/-- Witness for claim C8: a plain uniform prior applied to a singleton
cube. -/
theorem C8_dimension_witness :
    priorCall (.uniform 0 1 false false 1) [(none : F)] = some ([(none : F)], [(none : F)]) ∧
    ([(none : F)], [(none : F)]).1.length = [(none : F)].length := by
  have h : priorCall (.uniform 0 1 false false 1) [(none : F)] =
      some ([(none : F)], [(none : F)]) := by
    rw [priorCall, basePriorCall_plain]
    simp [uniformCtp]
  exact ⟨h, C8_dimension _ _ _ h⟩

theorem pc_plain_uniform (mn mx : ℝ) (nm : ℤ) (cube : List F) :
    priorCall (.uniform mn mx false false nm) cube = some (uniformCtp mn mx cube, cube) := by
  rw [priorCall, basePriorCall_plain]

theorem pc_c3_block :
    priorCall (.block [.exponential 2 true true 1, .uniform 0 1 false false 1] [2, 1])
        [(none : F), some ((1 : ℝ) / 2), some (1 / 3)] =
      some ([none, none, some ((1 : ℝ) / 3)],
            [(none : F), some ((1 : ℝ) / 2), some (1 / 3)]) := by
  have hm1 : priorCall (.exponential 2 true true 1) [(none : F), some ((1 : ℝ) / 2)] =
      some ([none, none], [(none : F), some ((1 : ℝ) / 2)]) := by
    rw [priorCall]
    rw [show ([(none : F), some ((1 : ℝ) / 2)] : List F) =
      (none : F) :: [some ((1 : ℝ) / 2)] from rfl]
    rw [basePriorCall_nanHead]
    simp [List.replicate]
  have hm2 : priorCall (.uniform 0 1 false false 1) [some ((1 : ℝ) / 3)] =
      some ([some ((1 : ℝ) / 3)], [some ((1 : ℝ) / 3)]) := by
    rw [pc_plain_uniform]
    norm_num [uniformCtp]
  rw [priorCall_block_eq]
  simp only [List.map_cons, List.map_nil, List.length_cons, List.length_nil]
  rw [blockGoFns]
  rw [show ((([(none : F), some ((1 : ℝ) / 2), some (1 / 3)] : List F).drop 0).take 2) =
    [(none : F), some ((1 : ℝ) / 2)] by rfl]
  rw [hm1]
  dsimp only
  rw [blockGoFns]
  rw [show (((writeSlice [(none : F), some ((1 : ℝ) / 2), some (1 / 3)] 0
      [(none : F), some ((1 : ℝ) / 2)]).drop (0 + 2)).take 1) = [some ((1 : ℝ) / 3)] by rfl]
  rw [hm2]
  dsimp only
  rw [blockGoFns]
  rfl

/-- Claim C3, counterexample: a block composition enclosing an adaptive
prior, applied to a cube whose adaptive leading coordinate is NaN, does
NOT return an all-NaN vector: the non-adaptive block still produces its
ordinary value (coordinate 2 here is `1/3`, not NaN). -/
theorem C3_counterexample :
    (priorCall (.block [.exponential 2 true true 1, .uniform 0 1 false false 1] [2, 1])
        [(none : F), some ((1 : ℝ) / 2), some (1 / 3)]).map (fun o => o.1.getD 2 none) =
      some (some ((1 : ℝ) / 3)) ∧
    (some ((1 : ℝ) / 3) : F) ≠ none := by
  constructor
  · rw [pc_c3_block]
    rfl
  · simp

/-- Claim C3, amended: an adaptive primitive transform applied to a cube
with NaN leading coordinate returns an all-NaN vector of the same length
and raises no exception, for every configuration; an enclosing block
composition also raises no exception and propagates the NaN block, but
its output is NaN only on the range of the adaptive block (demonstrated
on a concrete composition whose final coordinate stays defined). -/
theorem C3_nan_propagation (rest : List F) (mn mx sg lam : ℝ)
    (pos so1 so2 so3 : Bool) (nm : ℤ) :
    (priorCall (.uniform mn mx true so1 nm) ((none : F) :: rest) =
      some (List.replicate (rest.length + 1) none, (none : F) :: rest)) ∧
    (priorCall (.gaussian sg pos true so2 nm) ((none : F) :: rest) =
      some (List.replicate (rest.length + 1) none, (none : F) :: rest)) ∧
    (priorCall (.exponential lam true so3 nm) ((none : F) :: rest) =
      some (List.replicate (rest.length + 1) none, (none : F) :: rest)) ∧
    priorCall (.block [.exponential 2 true true 1, .uniform 0 1 false false 1] [2, 1])
        [(none : F), some ((1 : ℝ) / 2), some (1 / 3)] =
      some ([none, none, some ((1 : ℝ) / 3)],
            [(none : F), some ((1 : ℝ) / 2), some (1 / 3)]) := by
  refine ⟨?_, ?_, ?_, pc_c3_block⟩
  · rw [priorCall]
    exact basePriorCall_nanHead _ _ _ _
  · rw [priorCall]
    exact basePriorCall_nanHead _ _ _ _
  · rw [priorCall]
    exact basePriorCall_nanHead _ _ _ _

/-- Claim C4, counterexample: an adaptive sorted Uniform transform
mutates the caller's cube: called on `[3/4, 1, 1/16]` it returns with
the input array overwritten to `[3/4, 1/4, 1/4]` (the sorted slice is
written back in place through the numpy view). -/
theorem C4_counterexample :
    priorCall (.uniform 0 1 true true 1) [some ((3 : ℝ) / 4), some 1, some (1 / 16)] =
      some ([some (2 : ℝ), some (1 / 4), some (1 / 4)],
            [some ((3 : ℝ) / 4), some (1 / 4), some (1 / 4)]) ∧
    ([some ((3 : ℝ) / 4), some (1 / 4), some (1 / 4)] : List F) ≠
      [some ((3 : ℝ) / 4), some 1, some (1 / 16)] := by
  refine ⟨pc_gg_main, ?_⟩
  intro hcon
  simp only [List.cons.injEq, Option.some.injEq] at hcon
  norm_num at hcon

/-- Claim C4, amended: a prior call leaves the input cube unchanged
UNLESS the transform contains an adaptive sorted primitive; every
transform with no adaptive-and-sorted constituent returns the cube it
was given, while adaptive sorted primitives overwrite
`cube[1 : 1 + nfunc]` with the forced-identifiability of that slice. -/
theorem C4_no_mutation (p : Prior) (cube : List F) (out : List F × List F)
    (hns : noAdSort p = true) (h : priorCall p cube = some out) : out.2 = cube :=
  priorCall_pure p cube out hns h

/-- Witness for the amended claim C4: a plain uniform prior on a
one-element cube. -/
theorem C4_no_mutation_witness :
    noAdSort (.uniform 0 1 false false 1) = true ∧
    priorCall (.uniform 0 1 false false 1) [some ((1 : ℝ) / 2)] =
      some ([some ((1 : ℝ) / 2)], [some ((1 : ℝ) / 2)]) ∧
    (([some ((1 : ℝ) / 2)], [some ((1 : ℝ) / 2)]) : List F × List F).2 =
      [some ((1 : ℝ) / 2)] := by
  have hns : noAdSort (.uniform 0 1 false false 1) = true := by
    rw [noAdSort]
    rfl
  have h : priorCall (.uniform 0 1 false false 1) [some ((1 : ℝ) / 2)] =
      some ([some ((1 : ℝ) / 2)], [some ((1 : ℝ) / 2)]) := by
    rw [pc_plain_uniform]
    norm_num [uniformCtp]
  exact ⟨hns, h, C4_no_mutation _ _ _ hns h⟩

/-- Claim C5, counterexample: `BlockPrior` construction succeeds with a
single block of declared size 3 (the assert only compares the two list
lengths), and the constructed composition applies without error to a
cube of length 5, whose dimensionality differs from the size sum 3: the
numpy slices clip and the remaining output stays at its zero
initialisation. -/
theorem C5_counterexample :
    mkBlockPrior [.uniform 0 1 false false 1] [3] =
      some (.block [.uniform 0 1 false false 1] [3]) ∧
    priorCall (.block [.uniform 0 1 false false 1] [3])
        [some ((1 : ℝ) / 2), some (1 / 2), some (1 / 2), some (1 / 2), some (1 / 2)] =
      some ([some ((1 : ℝ) / 2), some (1 / 2), some (1 / 2), some 0, some 0],
            [some ((1 : ℝ) / 2), some (1 / 2), some (1 / 2), some (1 / 2), some (1 / 2)]) := by
  constructor
  · rw [mkBlockPrior]
    simp
  · have hm : priorCall (.uniform 0 1 false false 1)
        [some ((1 : ℝ) / 2), some (1 / 2), some (1 / 2)] =
        some ([some ((1 : ℝ) / 2), some (1 / 2), some (1 / 2)],
              [some ((1 : ℝ) / 2), some (1 / 2), some (1 / 2)]) := by
      rw [pc_plain_uniform]
      norm_num [uniformCtp]
    rw [priorCall_block_eq]
    simp only [List.map_cons, List.map_nil, List.length_cons, List.length_nil]
    rw [blockGoFns]
    rw [show ((([some ((1 : ℝ) / 2), some (1 / 2), some (1 / 2), some (1 / 2),
      some (1 / 2)] : List F).drop 0).take 3) =
      [some ((1 : ℝ) / 2), some (1 / 2), some (1 / 2)] by rfl]
    rw [hm]
    dsimp only
    rw [blockGoFns]
    rfl

/-- Claim C5, amended: `BlockPrior` construction succeeds exactly when
the number of prior blocks equals the number of declared sizes; no
comparison of the size sum against any total dimensionality happens at
construction (the dimension is not a constructor input), and a call on
a cube whose length differs from the size sum still returns. -/
theorem C5_constructor (ps : List Prior) (ss : List ℕ) :
    (mkBlockPrior ps ss).isSome = true ↔ ps.length = ss.length := by
  rw [mkBlockPrior]
  split_ifs with h
  · simpa using h
  · simpa using h

theorem pc_ta_mut :
    priorCall (.uniform 0 2 false false 1) [some ((3 : ℝ) / 4), some (1 / 4)] =
      some ([some ((3 : ℝ) / 2), some (1 / 2)], [some ((3 : ℝ) / 4), some (1 / 4)]) := by
  rw [pc_plain_uniform]
  norm_num [uniformCtp]

/-- Claim C6, counterexample: in the family-B branch the `ta` prior is
applied to the cube AFTER the `gg` call has sorted part of it in place,
so the middle coordinates do not equal the `ta` transform of the
original `cube[1 : D - T]`: on
`cube = [1/2, 3/4, 1, 1/16]` with `T = 1` the output coordinate 2 is
`1/2`, while the `ta` transform of the original `cube[1:3]` has `2`
there. -/
theorem C6_counterexample :
    (priorCall (.adfam (.uniform 0 1 true true 1) (.uniform 0 2 false false 1) 1)
        [some ((1 : ℝ) / 2), some (3 / 4), some 1, some (1 / 16)]).map
      (fun o => o.1.getD 2 none) = some (some ((1 : ℝ) / 2)) ∧
    (priorCall (.uniform 0 2 false false 1) [some ((3 : ℝ) / 4), some 1]).map
      (fun o => o.1.getD 1 none) = some (some (2 : ℝ)) ∧
    (some ((1 : ℝ) / 2) : F) ≠ (some (2 : ℝ) : F) := by
  refine ⟨?_, ?_, ?_⟩
  · rw [show ([some ((1 : ℝ) / 2), some (3 / 4), some 1, some (1 / 16)] : List F) =
      some ((1 : ℝ) / 2) :: [some ((3 : ℝ) / 4), some 1, some (1 / 16)] from rfl]
    rw [priorCall_adfam_ge (.uniform 0 1 true true 1) (.uniform 0 2 false false 1) 1
      ((1 : ℝ) / 2) [some ((3 : ℝ) / 4), some 1, some (1 / 16)]
      [some (2 : ℝ), some (1 / 4), some (1 / 4)]
      [some ((3 : ℝ) / 4), some (1 / 4), some (1 / 4)]
      [some ((3 : ℝ) / 2), some (1 / 2)] [some ((3 : ℝ) / 4), some (1 / 4)]
      pc_gg_main (by norm_num) (by norm_num) (by
        rw [show (([some ((3 : ℝ) / 4), some (1 / 4), some (1 / 4)] : List F).take
          (([some ((3 : ℝ) / 4), some 1, some (1 / 16)] : List F).length - 1)) =
          [some ((3 : ℝ) / 4), some (1 / 4)] by rfl]
        exact pc_ta_mut)]
    rfl
  · rw [pc_plain_uniform]
    norm_num [uniformCtp]
  · simp only [ne_eq, Option.some.injEq]
    norm_num

/-- Claim C6, amended: with selector `s = 0.5 + 2 * cube[0]`, when
`s < 1.5` the output is `s` followed by the `gg` transform of
`cube[1:]`; when `s >= 1.5` the range `theta[1 : D - T]` is overwritten
with the `ta` transform applied to the POST-`gg` cube tail (the `gg`
call writes sorted values back into the cube in place), and the
trailing `T` coordinates keep the `gg` values. -/
theorem C6_family_selector (gg ta : Prior) (nf : ℕ) (u : ℝ) (rest thT restM : List F)
    (hgg : priorCall gg rest = some (thT, restM)) :
    (u < 1 / 2 →
      priorCall (.adfam gg ta nf) (some u :: rest) =
        some (some (0.5 + (2.5 - 0.5) * u) :: thT, some u :: restM)) ∧
    (∀ thTa subM : List F, 1 / 2 ≤ u → 1 ≤ nf →
      priorCall ta (restM.take (rest.length - nf)) = some (thTa, subM) →
      priorCall (.adfam gg ta nf) (some u :: rest) =
        some (writeSlice (some (0.5 + (2.5 - 0.5) * u) :: thT) 1 thTa,
              writeSlice (some u :: restM) 1 subM)) ∧
    (∀ thTa : List F, thTa.length ≤ thT.length →
      writeSlice (some (0.5 + (2.5 - 0.5) * u) :: thT) 1 thTa =
        some (0.5 + (2.5 - 0.5) * u) :: (thTa ++ thT.drop thTa.length)) := by
  refine ⟨fun hu => priorCall_adfam_lt gg ta nf u rest thT restM hgg hu,
    fun thTa subM hu hnf hta =>
      priorCall_adfam_ge gg ta nf u rest thT restM thTa subM hgg hnf hu hta,
    fun thTa hlen => ?_⟩
  rw [show (1 : ℕ) = 0 + 1 from rfl, writeSlice_cons_succ, writeSlice_append _ _ hlen]

/-- Witness for the amended claim C6 in the family-B branch, on the
concrete counterexample cube. -/
theorem C6_family_selector_witness :
    priorCall (.uniform 0 1 true true 1) [some ((3 : ℝ) / 4), some 1, some (1 / 16)] =
      some ([some (2 : ℝ), some (1 / 4), some (1 / 4)],
            [some ((3 : ℝ) / 4), some (1 / 4), some (1 / 4)]) ∧
    (1 : ℝ) / 2 ≤ (1 : ℝ) / 2 ∧ 1 ≤ 1 ∧
    priorCall (.adfam (.uniform 0 1 true true 1) (.uniform 0 2 false false 1) 1)
        (some ((1 : ℝ) / 2) :: [some ((3 : ℝ) / 4), some 1, some (1 / 16)]) =
      some (writeSlice (some (0.5 + (2.5 - 0.5) * ((1 : ℝ) / 2)) ::
              [some (2 : ℝ), some (1 / 4), some (1 / 4)]) 1
              [some ((3 : ℝ) / 2), some (1 / 2)],
            writeSlice (some ((1 : ℝ) / 2) ::
              [some ((3 : ℝ) / 4), some (1 / 4), some (1 / 4)]) 1
              [some ((3 : ℝ) / 4), some (1 / 4)]) := by
  have hta : priorCall (.uniform 0 2 false false 1)
      (([some ((3 : ℝ) / 4), some (1 / 4), some (1 / 4)] : List F).take
        (([some ((3 : ℝ) / 4), some 1, some (1 / 16)] : List F).length - 1)) =
      some ([some ((3 : ℝ) / 2), some (1 / 2)], [some ((3 : ℝ) / 4), some (1 / 4)]) := by
    rw [show (([some ((3 : ℝ) / 4), some (1 / 4), some (1 / 4)] : List F).take
      (([some ((3 : ℝ) / 4), some 1, some (1 / 16)] : List F).length - 1)) =
      [some ((3 : ℝ) / 4), some (1 / 4)] by rfl]
    exact pc_ta_mut
  exact ⟨pc_gg_main, le_refl _, le_refl _,
    (C6_family_selector (.uniform 0 1 true true 1) (.uniform 0 2 false false 1) 1
      ((1 : ℝ) / 2) [some ((3 : ℝ) / 4), some 1, some (1 / 16)]
      [some (2 : ℝ), some (1 / 4), some (1 / 4)]
      [some ((3 : ℝ) / 4), some (1 / 4), some (1 / 4)] pc_gg_main).2.1
      [some ((3 : ℝ) / 2), some (1 / 2)] [some ((3 : ℝ) / 4), some (1 / 4)]
      (le_refl _) (le_refl _) hta⟩

/-- Claim C9: at the family boundary, a cube head of `1/2` gives
selector value exactly `0.5 + 2 * (1/2) = 1.5`, and the comparison
`theta[0] >= 1.5` selects family B: the middle range is overwritten with
the `ta` transform. -/
theorem C9_boundary_inclusive (gg ta : Prior) (nf : ℕ)
    (rest thT restM thTa subM : List F)
    (hgg : priorCall gg rest = some (thT, restM)) (hnf : 1 ≤ nf)
    (hta : priorCall ta (restM.take (rest.length - nf)) = some (thTa, subM)) :
    0.5 + (2.5 - 0.5) * ((1 : ℝ) / 2) = 1.5 ∧
    priorCall (.adfam gg ta nf) (some ((1 : ℝ) / 2) :: rest) =
      some (writeSlice (some (1.5 : ℝ) :: thT) 1 thTa,
            writeSlice (some ((1 : ℝ) / 2) :: restM) 1 subM) := by
  constructor
  · norm_num
  · have h := priorCall_adfam_ge gg ta nf ((1 : ℝ) / 2) rest thT restM thTa subM hgg hnf
      (le_refl _) hta
    rw [show (0.5 + (2.5 - 0.5) * ((1 : ℝ) / 2)) = (1.5 : ℝ) by norm_num] at h
    exact h

/-- Witness for claim C9 on a concrete three-coordinate cube. -/
theorem C9_boundary_inclusive_witness :
    priorCall (.uniform 0 1 false false 1) [some ((1 : ℝ) / 4), some (3 / 4)] =
      some ([some ((1 : ℝ) / 4), some (3 / 4)], [some ((1 : ℝ) / 4), some (3 / 4)]) ∧
    (1 : ℕ) ≤ 1 ∧
    priorCall (.uniform 0 2 false false 1)
        (([some ((1 : ℝ) / 4), some (3 / 4)] : List F).take
          (([some ((1 : ℝ) / 4), some (3 / 4)] : List F).length - 1)) =
      some ([some ((1 : ℝ) / 2)], [some ((1 : ℝ) / 4)]) ∧
    (0.5 + (2.5 - 0.5) * ((1 : ℝ) / 2) = 1.5 ∧
      priorCall (.adfam (.uniform 0 1 false false 1) (.uniform 0 2 false false 1) 1)
          (some ((1 : ℝ) / 2) :: [some ((1 : ℝ) / 4), some (3 / 4)]) =
        some (writeSlice (some (1.5 : ℝ) :: [some ((1 : ℝ) / 4), some (3 / 4)]) 1
                [some ((1 : ℝ) / 2)],
              writeSlice (some ((1 : ℝ) / 2) :: [some ((1 : ℝ) / 4), some (3 / 4)]) 1
                [some ((1 : ℝ) / 4)])) := by
  have hgg : priorCall (.uniform 0 1 false false 1) [some ((1 : ℝ) / 4), some (3 / 4)] =
      some ([some ((1 : ℝ) / 4), some (3 / 4)], [some ((1 : ℝ) / 4), some (3 / 4)]) := by
    rw [pc_plain_uniform]
    norm_num [uniformCtp]
  have hta : priorCall (.uniform 0 2 false false 1)
      (([some ((1 : ℝ) / 4), some (3 / 4)] : List F).take
        (([some ((1 : ℝ) / 4), some (3 / 4)] : List F).length - 1)) =
      some ([some ((1 : ℝ) / 2)], [some ((1 : ℝ) / 4)]) := by
    rw [show (([some ((1 : ℝ) / 4), some (3 / 4)] : List F).take
      (([some ((1 : ℝ) / 4), some (3 / 4)] : List F).length - 1)) =
      [some ((1 : ℝ) / 4)] by rfl]
    rw [pc_plain_uniform]
    norm_num [uniformCtp]
  exact ⟨hgg, le_refl _, hta,
    C9_boundary_inclusive (.uniform 0 1 false false 1) (.uniform 0 2 false false 1) 1
      [some ((1 : ℝ) / 4), some (3 / 4)] [some ((1 : ℝ) / 4), some (3 / 4)]
      [some ((1 : ℝ) / 4), some (3 / 4)] [some ((1 : ℝ) / 2)] [some ((1 : ℝ) / 4)]
      hgg (le_refl _) hta⟩

end BSR
